import Mathlib

/-
  Verification of the tree-transformation and access-policy core of the
  mcp-server-airbnb repository.

  The JSON-like values the TypeScript code manipulates are modelled by the
  inductive type Value below. JavaScript distinguishes null from undefined,
  and deleting an index of an array leaves a hole that reads back as
  undefined, so the model has a separate vundef constructor. Numbers are
  modelled as integers; the claims under study never depend on float
  behaviour.
-/

namespace MCPAirbnb

inductive Value where
  | vnull
  | vundef
  | vbool (b : Bool)
  | vnum (n : Int)
  | vstr (s : String)
  | varr (elems : List Value)
  | vobj (fields : List (String × Value))

open Value

/-- JavaScript truthiness of a value: null, undefined, false, 0 and the
empty string are falsy; every array and every object (empty or not) is
truthy. -/
def truthy : Value → Bool
  | vnull => false
  | vundef => false
  | vbool b => b
  | vnum n => n != 0
  | vstr s => s != ""
  | varr _ => true
  | vobj _ => true

/-- Whether the JavaScript expression typeof v === "object" holds for a
value that is already known to be truthy (null, for which typeof is also
"object", is falsy and is always handled before this test in the source). -/
def isObjType : Value → Bool
  | varr _ => true
  | vobj _ => true
  | _ => false

/-
  cleanObject, from src/util.ts lines 1-9:

    export function cleanObject(obj: any) \x7b
      Object.keys(obj).forEach(key => \x7b
        if (!obj[key] || key === "__typename") \x7b
          delete obj[key];
        \x7d else if (typeof obj[key] === "object") \x7b
          cleanObject(obj[key]);
        \x7d
      \x7d);
    \x7d

  The in-place mutation is modelled by returning the tree the mutation
  leaves behind. On a plain object, delete removes the key. On an array,
  Object.keys yields the indices and delete arr[i] leaves a hole whose
  read-back is undefined (the length is unchanged), which is modelled by
  replacing the element with vundef. Object.keys(null) and
  Object.keys(undefined) throw a TypeError, modelled by Option.none at the
  top level; a nested null or undefined is falsy and is deleted before the
  recursion can reach it, so only the top level can throw. On a number or
  boolean Object.keys yields no keys, and on a string it yields the
  character indices, each holding a truthy one-character string that no
  branch touches, so every primitive is left unchanged.
-/

mutual

def cleanVal : Value → Value
  | vobj fields => vobj (cleanFields fields)
  | varr elems => varr (cleanElems elems)
  | v => v

def cleanFields : List (String × Value) → List (String × Value)
  | [] => []
  | (k, v) :: rest =>
      if !truthy v || k == "__typename" then cleanFields rest
      else if isObjType v then (k, cleanVal v) :: cleanFields rest
      else (k, v) :: cleanFields rest

def cleanElems : List Value → List Value
  | [] => []
  | v :: rest =>
      if !truthy v then vundef :: cleanElems rest
      else if isObjType v then cleanVal v :: cleanElems rest
      else v :: cleanElems rest

end

/-- Top-level entry point of cleanObject: none models the TypeError thrown
by Object.keys on null or undefined; on every other input the function
completes and the (possibly mutated) tree is returned. -/
def cleanObject : Value → Option Value
  | vnull => none
  | vundef => none
  | vobj fields => some (vobj (cleanFields fields))
  | varr elems => some (varr (cleanElems elems))
  | v => some v

/-
  pickBySchema, from src/util.ts lines 11-34. The schema is an arbitrary
  value; the for-in loop of the source iterates over the own enumerable
  keys of the schema, which for a plain object are its fields, for an
  array the indices of its elements as decimal strings, for a string the
  character indices, and for every other value nothing at all.
-/

/-- Property lookup obj[key] together with the hasOwnProperty test of the
source: none when the key is absent. JavaScript objects have unique keys,
so taking the first matching binding is faithful. -/
def getField : List (String × Value) → String → Option Value
  | [], _ => none
  | (k, v) :: rest, key => if k == key then some v else getField rest key

def idxEntries : List Value → Nat → List (String × Value)
  | [], _ => []
  | v :: rest, n => (toString n, v) :: idxEntries rest (n + 1)

def charEntries : List Char → Nat → List (String × Value)
  | [], _ => []
  | c :: rest, n => (toString n, vstr (String.singleton c)) :: charEntries rest (n + 1)

/-- The own enumerable keys of a schema value paired with the rule stored
at each key, in for-in order. -/
def schemaEntries : Value → List (String × Value)
  | vobj fields => fields
  | varr elems => idxEntries elems 0
  | vstr s => charEntries s.toList 0
  | _ => []

def sizeOf_getField : ∀ {fields : List (String × Value)} {k : String} {v : Value},
    getField fields k = some v → sizeOf v < sizeOf fields
  | (k0, v0) :: rest, k, v, h => by
      unfold getField at h
      by_cases hk : (k0 == k) = true
      · rw [if_pos hk] at h
        cases h
        simp only [List.cons.sizeOf_spec, Prod.mk.sizeOf_spec]
        omega
      · rw [if_neg hk] at h
        have := sizeOf_getField h
        simp only [List.cons.sizeOf_spec, Prod.mk.sizeOf_spec]
        omega

mutual

def pickBySchema : Value → Value → Value
  | vobj fields, schema => vobj (pickFields fields (schemaEntries schema))
  | varr elems, schema => varr (pickElems elems schema)
  | v, _ => v
termination_by v schema => (sizeOf v, 0)
decreasing_by
  all_goals simp_wf
  all_goals first
    | (apply Prod.Lex.right; omega)
    | (apply Prod.Lex.left; omega)
    | (apply Prod.Lex.left; exact sizeOf_getField h)

def pickFields (fields : List (String × Value)) :
    List (String × Value) → List (String × Value)
  | [] => []
  | (key, rule) :: rest =>
      match h : getField fields key with
      | none => pickFields fields rest
      | some v =>
          match rule with
          | vbool true => (key, v) :: pickFields fields rest
          | vobj sf => (key, pickBySchema v (vobj sf)) :: pickFields fields rest
          | varr se => (key, pickBySchema v (varr se)) :: pickFields fields rest
          | _ => pickFields fields rest
termination_by entries => (sizeOf fields, sizeOf entries)
decreasing_by
  all_goals simp_wf
  all_goals first
    | (apply Prod.Lex.right; omega)
    | (apply Prod.Lex.left; omega)
    | (apply Prod.Lex.left; exact sizeOf_getField h)

def pickElems : List Value → Value → List Value
  | [], _ => []
  | v :: rest, schema => pickBySchema v schema :: pickElems rest schema
termination_by elems schema => (sizeOf elems, 0)
decreasing_by
  all_goals simp_wf
  all_goals first
    | (apply Prod.Lex.right; omega)
    | (apply Prod.Lex.left; omega)
    | (apply Prod.Lex.left; exact sizeOf_getField h)

end
/-
  flattenArraysInObject, from src/util.ts lines 36-61. Arrays are joined
  with Array.prototype.join, which converts null and undefined elements to
  the empty string and every other element with the standard string
  conversion. The values that reach a join are always results of a
  recursive call with inArray set to true, and such results are never
  arrays or objects, so the conversion below only matters on primitives.
  src/util.ts joins the values of an object inside an array with a colon
  separator, while the copy of the function in the unnamed source file
  joins them with a comma; the embedding follows src/util.ts.
-/

/-- String conversion applied by Array.prototype.join to one element. -/
def joinStr : Value → String
  | vnull => ""
  | vundef => ""
  | vbool b => if b then "true" else "false"
  | vnum n => toString n
  | vstr s => s
  | varr _ => ""
  | vobj _ => "[object Object]"

mutual

def flattenArraysInObject : Value → Bool → Value
  | varr elems, _ => vstr (String.intercalate ", " (flattenElems elems))
  | vobj fields, true => vstr (String.intercalate ": " (flattenVals fields))
  | vobj fields, false => vobj (flattenFields fields)
  | v, _ => v

def flattenElems : List Value → List String
  | [] => []
  | v :: rest => joinStr (flattenArraysInObject v true) :: flattenElems rest

def flattenVals : List (String × Value) → List String
  | [] => []
  | (_, v) :: rest => joinStr (flattenArraysInObject v true) :: flattenVals rest

def flattenFields : List (String × Value) → List (String × Value)
  | [] => []
  | (k, v) :: rest => (k, flattenArraysInObject v false) :: flattenFields rest

end
/-
  isPathAllowed, the hand-rolled robots.txt evaluator from the unnamed
  source file (src/unnamed/part_000 lines 173-207). The string operations
  of JavaScript are modelled on character lists so that everything
  computes: split on the newline character, trim of ASCII whitespace,
  ASCII lower-casing, prefix test, substring containment, and substring
  from a character index (String.prototype.substring clamps the start
  index, as List.drop does). The module-level robotsTxtContent variable
  is modelled as the content argument, and the constant USER_AGENT of the
  source as the agent argument, matching the isAllowed(path, agentId)
  interface of the specification.
-/

def jsIsSpace (c : Char) : Bool :=
  c == ' ' || c == '\t' || c == '\n' || c == '\r' || c.toNat == 11 || c.toNat == 12

def jsTrim (s : String) : String :=
  ⟨((s.toList.dropWhile jsIsSpace).reverse.dropWhile jsIsSpace).reverse⟩

def jsLower (s : String) : String :=
  ⟨s.toList.map Char.toLower⟩

def jsStartsWith (s pat : String) : Bool :=
  pat.toList.isPrefixOf s.toList

/-- Whether pat occurs as a contiguous run inside s, the semantics of
String.prototype.includes. -/
def charsContain : List Char → List Char → Bool
  | [], pat => pat.isEmpty
  | c :: rest, pat => pat.isPrefixOf (c :: rest) || charsContain rest pat

def jsIncludes (s pat : String) : Bool :=
  charsContain s.toList pat.toList

def jsDropChars (s : String) (n : Nat) : String :=
  ⟨s.toList.drop n⟩

def splitLinesAux (cur : List Char) : List Char → List String
  | [] => [⟨cur.reverse⟩]
  | c :: rest => if c == '\n' then (⟨cur.reverse⟩ : String) :: splitLinesAux [] rest
                 else splitLinesAux (c :: cur) rest

/-- String.prototype.split with the newline separator. -/
def splitLines (s : String) : List String := splitLinesAux [] s.toList

/-- One pass over the remaining lines of the permission document, carrying
the userAgentSection flag of the source. -/
def isAllowedLines (path agent : String) : List String → Bool → Bool
  | [], _ => true
  | line :: rest, sec =>
      let t := jsTrim line
      if jsStartsWith t "#" || t == "" then isAllowedLines path agent rest sec
      else if jsStartsWith (jsLower t) "user-agent:" then
        isAllowedLines path agent rest
          (jsTrim (jsDropChars t 11) == "*" || jsIncludes agent (jsTrim (jsDropChars t 11)))
      else if sec && jsStartsWith (jsLower t) "disallow:" then
        if jsTrim (jsDropChars t 9) != "" && jsStartsWith path (jsTrim (jsDropChars t 9)) then
          false
        else isAllowedLines path agent rest sec
      else isAllowedLines path agent rest sec

def isPathAllowed (content path agent : String) : Bool :=
  if content == "" then true
  else isAllowedLines path agent (splitLines content) false

/-
  Specification-side definitions. These follow the wording of the
  specification, not the source, and exist only to be compared with the
  definitions above.
-/

/-- Falsy in the sense the specification uses the word: null, empty
string, zero, false, together with the empty sequence and the empty
mapping. The JavaScript notion differs: an empty array or object is
truthy there. -/
def specFalsy : Value → Bool
  | vnull => true
  | vundef => true
  | vbool b => !b
  | vnum n => n == 0
  | vstr s => s == ""
  | varr elems => elems.isEmpty
  | vobj fields => fields.isEmpty

mutual

/-- No reachable mapping binds a key to a value that is falsy in the sense
of the specification, and no reachable mapping has a key named
__typename. -/
def specClean : Value → Bool
  | vobj fields => specCleanFields fields
  | varr elems => specCleanElems elems
  | _ => true

def specCleanFields : List (String × Value) → Bool
  | [] => true
  | (k, v) :: rest => !specFalsy v && k != "__typename" && specClean v && specCleanFields rest

def specCleanElems : List Value → Bool
  | [] => true
  | v :: rest => specClean v && specCleanElems rest

end

mutual

/-- No reachable mapping binds a key to a JavaScript-falsy value, and no
reachable mapping has a key named __typename. -/
def jsClean : Value → Bool
  | vobj fields => jsCleanFields fields
  | varr elems => jsCleanElems elems
  | _ => true

def jsCleanFields : List (String × Value) → Bool
  | [] => true
  | (k, v) :: rest => truthy v && k != "__typename" && jsClean v && jsCleanFields rest

def jsCleanElems : List Value → Bool
  | [] => true
  | v :: rest => jsClean v && jsCleanElems rest

end

mutual

/-- No sequence value occurs anywhere in the tree. -/
def noSeq : Value → Bool
  | varr _ => false
  | vobj fields => noSeqFields fields
  | _ => true

def noSeqFields : List (String × Value) → Bool
  | [] => true
  | (_, v) :: rest => noSeq v && noSeqFields rest

end

/-- The keys of a mapping value; every other value has none. -/
def keysOf : Value → List String
  | vobj fields => fields.map Prod.fst
  | _ => []

/-- Primitive values in the sense of the amended no-op claim: numbers,
strings and booleans, the top-level inputs on which Object.keys yields no
key that any branch of cleanObject touches. -/
def isPrimNonNull : Value → Bool
  | vbool _ => true
  | vnum _ => true
  | vstr _ => true
  | _ => false

/-- The keys of the given field list are pairwise distinct. -/
def nodupKeys : List (String × Value) → Bool
  | [] => true
  | (k, _) :: rest => !(rest.any (fun e => e.1 == k)) && nodupKeys rest

mutual

/-- A well-formed inclusion schema in the sense of the data model of the
specification: every rule is either the literal marker Keep, written as
the boolean true, or a nested mapping of rules whose keys are distinct,
as the keys of a JavaScript object always are. -/
def wfRule : Value → Bool
  | vbool true => true
  | vobj sf => nodupKeys sf && wfRuleFields sf
  | _ => false

def wfRuleFields : List (String × Value) → Bool
  | [] => true
  | (_, r) :: rest => wfRule r && wfRuleFields rest

end

/-
  Directive classification for the implicit claim about disallow lines
  that stand before the first user-agent line. A trimmed line that starts
  with a hash sign or is empty is skipped before any other test, and a
  line cannot start with both a user-agent and a disallow marker, so the
  two tests below classify exactly the lines on which the corresponding
  branches of isAllowedLines can fire.
-/

def isUADirective (line : String) : Bool :=
  jsStartsWith (jsLower (jsTrim line)) "user-agent:"

def isDisallowDirective (line : String) : Bool :=
  jsStartsWith (jsLower (jsTrim line)) "disallow:"

/-- Every disallow directive among the lines stands before the first
user-agent directive; in particular the condition holds when there is no
user-agent directive at all. -/
def disallowsBeforeFirstUA : List String → Bool
  | [] => true
  | line :: rest =>
      if isUADirective line then rest.all (fun l => !isDisallowDirective l)
      else disallowsBeforeFirstUA rest

/-
  Rule-set construction following the wording of the specification: the
  document is parsed into an ordered list of pairs of an agent pattern and
  a disallowed path, a pair matching when its pattern is the wildcard or
  is contained in the agent identifier; isAllowed is false exactly when
  the path starts with a collected non-empty disallowed path of a
  matching pair.
-/

def parseRules : List String → Option String → List (String × String)
  | [], _ => []
  | line :: rest, cur =>
      let t := jsTrim line
      if jsStartsWith t "#" || t == "" then parseRules rest cur
      else if jsStartsWith (jsLower t) "user-agent:" then
        parseRules rest (some (jsTrim (jsDropChars t 11)))
      else if jsStartsWith (jsLower t) "disallow:" then
        match cur with
        | some a => (a, jsTrim (jsDropChars t 9)) :: parseRules rest cur
        | none => parseRules rest cur
      else parseRules rest cur

def agentMatches (agent pat : String) : Bool :=
  pat == "*" || jsIncludes agent pat

/-- The disallowed-path prefixes collected from sections whose agent
pattern matches the agent identifier. -/
def collectedDisallows (content agent : String) : List String :=
  (parseRules (splitLines content) none).filterMap
    (fun r => if agentMatches agent r.1 then some r.2 else none)

/-- The match state of the section currently open while scanning: no
section is open before the first user-agent line. -/
def optMatch (agent : String) : Option String → Bool
  | none => false
  | some a => agentMatches agent a

/-
  Theorems. Helper lemmas come first, the claim theorems follow.
-/

theorem truthy_cleanVal_of_objType (v : Value) (h : isObjType v = true) :
    truthy (cleanVal v) = true := by
  cases v <;> simp_all [isObjType, cleanVal, truthy]

theorem jsClean_of_not_objType (v : Value) (h : isObjType v = false) : jsClean v = true := by
  cases v <;> simp_all [isObjType, jsClean]

mutual

theorem jsClean_cleanVal : ∀ (v : Value), jsClean (cleanVal v) = true
  | vnull => rfl
  | vundef => rfl
  | vbool _ => rfl
  | vnum _ => rfl
  | vstr _ => rfl
  | varr elems => jsCleanElems_cleanElems elems
  | vobj fields => jsCleanFields_cleanFields fields

theorem jsCleanFields_cleanFields : ∀ (fields : List (String × Value)),
    jsCleanFields (cleanFields fields) = true
  | [] => rfl
  | (k, v) :: rest => by
      unfold cleanFields
      by_cases h1 : (!truthy v || k == "__typename") = true
      · rw [if_pos h1]
        exact jsCleanFields_cleanFields rest
      · rw [if_neg h1]
        simp only [Bool.or_eq_true, Bool.not_eq_true', not_or] at h1
        obtain ⟨ht, hk⟩ := h1
        by_cases h2 : isObjType v = true
        · rw [if_pos h2]
          show jsCleanFields ((k, cleanVal v) :: cleanFields rest) = true
          simp [jsCleanFields, truthy_cleanVal_of_objType v h2, jsClean_cleanVal v,
            jsCleanFields_cleanFields rest, bne, hk]
        · rw [if_neg h2]
          show jsCleanFields ((k, v) :: cleanFields rest) = true
          simp [jsCleanFields, ht, jsClean_of_not_objType v (by simpa using h2),
            jsCleanFields_cleanFields rest, bne, hk]

theorem jsCleanElems_cleanElems : ∀ (elems : List Value),
    jsCleanElems (cleanElems elems) = true
  | [] => rfl
  | v :: rest => by
      unfold cleanElems
      by_cases h1 : (!truthy v) = true
      · rw [if_pos h1]
        show jsCleanElems (vundef :: cleanElems rest) = true
        simp [jsCleanElems, jsClean, jsCleanElems_cleanElems rest]
      · rw [if_neg h1]
        by_cases h2 : isObjType v = true
        · rw [if_pos h2]
          show jsCleanElems (cleanVal v :: cleanElems rest) = true
          simp [jsCleanElems, jsClean_cleanVal v, jsCleanElems_cleanElems rest]
        · rw [if_neg h2]
          show jsCleanElems (v :: cleanElems rest) = true
          simp [jsCleanElems, jsClean_of_not_objType v (by simpa using h2),
            jsCleanElems_cleanElems rest]

end

/-- C1, counterexample: the claim counts an empty mapping as falsy, but an
empty object is truthy in JavaScript, so cleanObject keeps the key a of
the input whose inner mapping becomes empty during the pass, and the
output mapping binds a key to a value the claim calls falsy. -/
theorem claim_C1_counterexample :
    cleanObject (vobj [("a", vobj [("b", vnum 0)])]) = some (vobj [("a", vobj [])]) ∧
    specClean (vobj [("a", vobj [])]) = false :=
  ⟨rfl, rfl⟩

/-- C1, amended: after cleanObject completes, no reachable mapping binds a
key to a value that is falsy in the JavaScript sense, and no reachable
mapping has a key named __typename; empty sequences and empty mappings
are truthy in JavaScript and are kept, including mappings that only
become empty during the pruning pass. -/
theorem claim_C1_amended_thm (v out : Value) (h : cleanObject v = some out) :
    jsClean out = true := by
  cases v with
  | vnull => simp [cleanObject] at h
  | vundef => simp [cleanObject] at h
  | vbool b => simp only [cleanObject, Option.some.injEq] at h; subst h; rfl
  | vnum n => simp only [cleanObject, Option.some.injEq] at h; subst h; rfl
  | vstr s => simp only [cleanObject, Option.some.injEq] at h; subst h; rfl
  | varr elems =>
      simp only [cleanObject, Option.some.injEq] at h
      subst h
      exact jsCleanElems_cleanElems elems
  | vobj fields =>
      simp only [cleanObject, Option.some.injEq] at h
      subst h
      exact jsCleanFields_cleanFields fields

/-- C1, witness for the amended theorem at a concrete input. -/
theorem claim_C1_amended_witness : jsClean (vobj []) = true :=
  claim_C1_amended_thm (vobj [("a", vnum 0)]) (vobj []) rfl

/-- C6, counterexample: the claim says cleanObject is an error-free no-op
on every top-level primitive or null, but Object.keys(null) throws a
TypeError, so cleanObject raises on a top-level null. -/
theorem claim_C6_counterexample : cleanObject vnull = none :=
  rfl

/-- C6, amended: on a top-level number, string or boolean, cleanObject
completes without error and returns the value untouched; a top-level null
or undefined makes Object.keys throw a TypeError. -/
theorem claim_C6_amended_thm (v : Value) (h : isPrimNonNull v = true) :
    cleanObject v = some v := by
  cases v <;> simp_all [isPrimNonNull, cleanObject]

/-- C6, witness for the amended theorem at a concrete input. -/
theorem claim_C6_amended_witness : cleanObject (vnum 3) = some (vnum 3) :=
  claim_C6_amended_thm (vnum 3) rfl

theorem cleanElems_length : ∀ (l : List Value), (cleanElems l).length = l.length
  | [] => rfl
  | v :: rest => by
      unfold cleanElems
      split
      · simp [cleanElems_length rest]
      · split <;> simp [cleanElems_length rest]

/-- C7, counterexample: cleanObject does reach inside arrays: the falsy
element 0 of the array under key a is deleted, leaving a hole that reads
back as undefined, so the surviving array does not hold exactly the
elements of the input array. -/
theorem claim_C7_counterexample :
    cleanObject (vobj [("a", varr [vnum 0, vnum 1])]) =
      some (vobj [("a", varr [vundef, vnum 1])]) ∧
    varr [vundef, vnum 1] ≠ varr [vnum 0, vnum 1] := by
  refine ⟨rfl, ?_⟩
  intro h
  injection h with h1
  injection h1 with h2 h3
  exact Value.noConfusion h2

/-- C7, amended: cleanObject never splices elements out of an array: every
surviving array has exactly the length of the corresponding input array,
and a truthy element that is not an object survives unchanged at its own
position; a falsy element is replaced by a hole. -/
theorem claim_C7_amended_thm (l : List Value) (i : Nat) (v : Value)
    (hget : l[i]? = some v) (ht : truthy v = true) (hn : isObjType v = false) :
    (cleanElems l).length = l.length ∧ (cleanElems l)[i]? = some v := by
  induction l generalizing i with
  | nil => simp at hget
  | cons hd tl ih =>
      constructor
      · show (cleanElems (hd :: tl)).length = (hd :: tl).length
        unfold cleanElems
        split
        · simpa using (cleanElems_length tl)
        · split <;> simpa using (cleanElems_length tl)
      · cases i with
        | zero =>
            simp only [List.getElem?_cons_zero, Option.some.injEq] at hget
            subst hget
            unfold cleanElems
            rw [if_neg (by simp [ht]), if_neg (by simp [hn])]
            simp
        | succ j =>
            simp only [List.getElem?_cons_succ] at hget
            have := (ih j hget).2
            unfold cleanElems
            split
            · simpa using this
            · split <;> simpa using this

/-- C7, witness for the amended theorem at a concrete input. -/
theorem claim_C7_amended_witness :
    (cleanElems [vnum 5]).length = [vnum 5].length ∧
    (cleanElems [vnum 5])[0]? = some (vnum 5) :=
  claim_C7_amended_thm [vnum 5] 0 (vnum 5) rfl rfl rfl

/-- C3, confirmed: with an empty permission document, which is also the
state after a failed or skipped fetch, isPathAllowed returns true for
every path and every agent identifier. -/
theorem claim_C3 : ∀ (path agent : String), isPathAllowed "" path agent = true :=
  fun _ _ => rfl

mutual

theorem noSeq_flatten : ∀ (v : Value) (b : Bool), noSeq (flattenArraysInObject v b) = true
  | vnull, _ => rfl
  | vundef, _ => rfl
  | vbool _, _ => rfl
  | vnum _, _ => rfl
  | vstr _, _ => rfl
  | varr _, _ => rfl
  | vobj _, true => rfl
  | vobj fields, false => noSeqFields_flattenFields fields

theorem noSeqFields_flattenFields : ∀ (fields : List (String × Value)),
    noSeqFields (flattenFields fields) = true
  | [] => rfl
  | (k, v) :: rest => by
      show noSeqFields ((k, flattenArraysInObject v false) :: flattenFields rest) = true
      simp [noSeqFields, noSeq_flatten v false, noSeqFields_flattenFields rest]

end

/-- C4, confirmed: for every input and both modes, the output of
flattenArraysInObject contains no sequence value anywhere in its
structure, and an array input always turns into a string at its own
position. -/
theorem claim_C4 :
    (∀ (v : Value) (b : Bool), noSeq (flattenArraysInObject v b) = true) ∧
    (∀ (elems : List Value) (b : Bool),
      flattenArraysInObject (varr elems) b =
        vstr (String.intercalate ", " (flattenElems elems))) :=
  ⟨noSeq_flatten, fun _ _ => rfl⟩

theorem getField_mem_keys : ∀ {fields : List (String × Value)} {k : String} {v : Value},
    getField fields k = some v → k ∈ fields.map Prod.fst
  | (k0, v0) :: rest, k, v, h => by
      unfold getField at h
      by_cases hk : (k0 == k) = true
      · simp [eq_of_beq hk]
      · rw [if_neg hk] at h
        simp [getField_mem_keys h]

theorem pickFields_keys_sub :
    ∀ (fields entries : List (String × Value)) (k : String),
    k ∈ (pickFields fields entries).map Prod.fst →
    k ∈ entries.map Prod.fst ∧ k ∈ fields.map Prod.fst := by
  intro fields entries
  induction entries with
  | nil => intro k h; simp [pickFields] at h
  | cons e rest ih =>
      obtain ⟨key, rule⟩ := e
      intro k h
      rcases hg : getField fields key with _ | v
      · rw [pickFields, hg] at h
        have := ih k h
        exact ⟨by simp [this.1], this.2⟩
      · rw [pickFields, hg] at h
        have hmem := getField_mem_keys hg
        cases rule with
        | vbool b =>
            cases b with
            | true =>
                simp only [List.map_cons, List.mem_cons] at h
                rcases h with h | h
                · subst h; exact ⟨by simp, hmem⟩
                · have := ih k h
                  exact ⟨by simp [this.1], this.2⟩
            | false =>
                have := ih k h
                exact ⟨by simp [this.1], this.2⟩
        | vobj sf =>
            simp only [List.map_cons, List.mem_cons] at h
            rcases h with h | h
            · subst h; exact ⟨by simp, hmem⟩
            · have := ih k h
              exact ⟨by simp [this.1], this.2⟩
        | varr se =>
            simp only [List.map_cons, List.mem_cons] at h
            rcases h with h | h
            · subst h; exact ⟨by simp, hmem⟩
            · have := ih k h
              exact ⟨by simp [this.1], this.2⟩
        | vnull =>
            have := ih k h
            exact ⟨by simp [this.1], this.2⟩
        | vundef =>
            have := ih k h
            exact ⟨by simp [this.1], this.2⟩
        | vnum n =>
            have := ih k h
            exact ⟨by simp [this.1], this.2⟩
        | vstr s =>
            have := ih k h
            exact ⟨by simp [this.1], this.2⟩

/-- C5, confirmed: every key of the mapping pickBySchema returns is a key
over which the schema iterates and a key of the input mapping, and the
concrete selection of scenario B produces exactly the expected tree. -/
theorem claim_C5 :
    (∀ (v s : Value) (k : String),
      k ∈ keysOf (pickBySchema v s) →
      k ∈ (schemaEntries s).map Prod.fst ∧ k ∈ keysOf v) ∧
    pickBySchema
        (vobj [("a", vnum 1), ("b", vnum 2), ("c", vobj [("d", vnum 3), ("e", vnum 4)])])
        (vobj [("a", vbool true), ("c", vobj [("d", vbool true)])]) =
      vobj [("a", vnum 1), ("c", vobj [("d", vnum 3)])] := by
  constructor
  · intro v s k h
    cases v with
    | vobj fields =>
        rw [pickBySchema] at h
        simp only [keysOf] at h
        exact pickFields_keys_sub fields (schemaEntries s) k h
    | varr elems => rw [pickBySchema] at h; simp [keysOf] at h
    | vnull => simp [pickBySchema, keysOf] at h
    | vundef => simp [pickBySchema, keysOf] at h
    | vbool b => simp [pickBySchema, keysOf] at h
    | vnum n => simp [pickBySchema, keysOf] at h
    | vstr s0 => simp [pickBySchema, keysOf] at h
  · simp [pickBySchema, pickFields, pickElems, schemaEntries, getField]

/-- C5, witness: the subset statement applied at the scenario B input and
the key a, with its membership hypothesis discharged by evaluation. -/
theorem claim_C5_witness :
    "a" ∈ (schemaEntries (vobj [("a", vbool true), ("c", vobj [("d", vbool true)])])).map
        Prod.fst ∧
    "a" ∈ keysOf
        (vobj [("a", vnum 1), ("b", vnum 2), ("c", vobj [("d", vnum 3), ("e", vnum 4)])]) :=
  claim_C5.1
    (vobj [("a", vnum 1), ("b", vnum 2), ("c", vobj [("d", vnum 3), ("e", vnum 4)])])
    (vobj [("a", vbool true), ("c", vobj [("d", vbool true)])]) "a"
    (by simp [pickBySchema, pickFields, pickElems, schemaEntries, getField, keysOf])

/-- C8, confirmed: pickBySchema is a total function of the embedding, and
a schema entry whose rule is neither the literal true nor an object is
skipped exactly as if the entry were absent. -/
theorem claim_C8 (fields rest' : List (String × Value)) (key : String) (r : Value)
    (h1 : r ≠ vbool true) (h2 : isObjType r = false) :
    pickFields fields ((key, r) :: rest') = pickFields fields rest' := by
  rcases hg : getField fields key with _ | v
  · rw [pickFields, hg]
  · rw [pickFields, hg]
    cases r with
    | vbool b =>
        cases b with
        | true => exact absurd rfl h1
        | false => rfl
    | vobj sf => simp [isObjType] at h2
    | varr se => simp [isObjType] at h2
    | vnull => rfl
    | vundef => rfl
    | vnum n => rfl
    | vstr s => rfl

/-- C8, witness: a numeric rule is skipped, at a concrete input. -/
theorem claim_C8_witness :
    pickFields [("a", vnum 1)] [("a", vnum 5)] = pickFields [("a", vnum 1)] [] :=
  claim_C8 [("a", vnum 1)] [] "a" (vnum 5) (fun h => Value.noConfusion h) rfl

theorem isAllowedLines_eq_rules (path agent : String) :
    ∀ (lines : List String) (cur : Option String),
    isAllowedLines path agent lines (optMatch agent cur) =
    !((parseRules lines cur).filterMap
        (fun r => if agentMatches agent r.1 then some r.2 else none)).any
      (fun d => d != "" && jsStartsWith path d) := by
  intro lines
  induction lines with
  | nil => intro cur; rfl
  | cons line rest ih =>
      intro cur
      by_cases hskip : (jsStartsWith (jsTrim line) "#" || jsTrim line == "") = true
      · simp only [isAllowedLines, parseRules]
        rw [if_pos hskip, if_pos hskip]
        exact ih cur
      · by_cases hua : jsStartsWith (jsLower (jsTrim line)) "user-agent:" = true
        · simp only [isAllowedLines, parseRules]
          rw [if_neg hskip, if_neg hskip, if_pos hua, if_pos hua]
          exact ih (some (jsTrim (jsDropChars (jsTrim line) 11)))
        · by_cases hdis : jsStartsWith (jsLower (jsTrim line)) "disallow:" = true
          · cases cur with
            | none =>
                simp only [isAllowedLines, parseRules]
                rw [if_neg hskip, if_neg hskip, if_neg hua, if_neg hua, if_pos hdis]
                rw [if_neg (by simp [optMatch])]
                exact ih none
            | some a =>
                simp only [isAllowedLines, parseRules]
                rw [if_neg hskip, if_neg hskip, if_neg hua, if_neg hua, if_pos hdis]
                by_cases hm : agentMatches agent a = true
                · rw [if_pos (by simp [optMatch, hm, hdis])]
                  by_cases hp : (jsTrim (jsDropChars (jsTrim line) 9) != "" &&
                      jsStartsWith path (jsTrim (jsDropChars (jsTrim line) 9))) = true
                  · rw [if_pos hp]
                    simp [hm, hp]
                  · rw [if_neg hp]
                    rw [List.filterMap_cons]
                    simp only [hm, if_pos]
                    rw [List.any_cons]
                    simp only [hp, Bool.false_or]
                    exact ih (some a)
                · rw [if_neg (by simp [optMatch, hm])]
                  rw [List.filterMap_cons]
                  simp only [hm]
                  rw [if_neg (by simp [hm])]
                  exact ih (some a)
          · simp only [isAllowedLines, parseRules]
            rw [if_neg hskip, if_neg hskip, if_neg hua, if_neg hua, if_neg hdis]
            rw [if_neg (by simp [hdis])]
            exact ih cur

/-- C2, confirmed: isPathAllowed returns false exactly when the path
starts with a non-empty disallowed prefix collected from a section whose
agent pattern is the wildcard or is contained in the agent identifier,
and the two concrete evaluations of scenario D hold for every agent. -/
theorem claim_C2 :
    (∀ (content path agent : String),
      isPathAllowed content path agent = false ↔
      ∃ d ∈ collectedDisallows content agent, d ≠ "" ∧ jsStartsWith path d = true) ∧
    (∀ agent : String,
      isPathAllowed "User-agent: *\nDisallow: /s/\n" "/s/Paris/homes" agent = false) ∧
    (∀ agent : String,
      isPathAllowed "User-agent: *\nDisallow: /s/\n" "/rooms/42" agent = true) := by
  refine ⟨?_, fun agent => rfl, fun agent => rfl⟩
  intro content path agent
  unfold isPathAllowed collectedDisallows
  by_cases hc : (content == "") = true
  · rw [if_pos hc]
    have hce : content = "" := eq_of_beq hc
    subst hce
    rw [show parseRules (splitLines "") none = [] from rfl]
    simp
  · rw [if_neg hc]
    have h := isAllowedLines_eq_rules path agent (splitLines content) none
    simp only [optMatch] at h
    rw [h, Bool.not_eq_false', List.any_eq_true]
    constructor
    · rintro ⟨d, hd, hp⟩
      simp only [Bool.and_eq_true, bne_iff_ne] at hp
      exact ⟨d, hd, hp⟩
    · rintro ⟨d, hd, h1, h2⟩
      refine ⟨d, hd, ?_⟩
      simp [Bool.and_eq_true, bne_iff_ne, h1, h2]

theorem isAllowedLines_of_noDisallow (path agent : String) :
    ∀ (lines : List String) (sec : Bool),
    lines.all (fun l => !isDisallowDirective l) = true →
    isAllowedLines path agent lines sec = true := by
  intro lines
  induction lines with
  | nil => intro sec _; rfl
  | cons line rest ih =>
      intro sec hall
      rw [List.all_cons] at hall
      simp only [Bool.and_eq_true, Bool.not_eq_true'] at hall
      obtain ⟨hline, hrest⟩ := hall
      have hrest' : rest.all (fun l => !isDisallowDirective l) = true := by
        simpa using hrest
      unfold isDisallowDirective at hline
      simp only [isAllowedLines]
      by_cases hskip : (jsStartsWith (jsTrim line) "#" || jsTrim line == "") = true
      · rw [if_pos hskip]; exact ih sec hrest'
      · rw [if_neg hskip]
        by_cases hua : jsStartsWith (jsLower (jsTrim line)) "user-agent:" = true
        · rw [if_pos hua]; exact ih _ hrest'
        · rw [if_neg hua]
          rw [if_neg (by simp [hline])]
          exact ih sec hrest'

theorem disallowsBeforeFirstUA_of_all :
    ∀ (lines : List String),
    lines.all (fun l => !isDisallowDirective l) = true →
    disallowsBeforeFirstUA lines = true := by
  intro lines
  induction lines with
  | nil => intro _; rfl
  | cons line rest ih =>
      intro hall
      rw [List.all_cons] at hall
      simp only [Bool.and_eq_true] at hall
      unfold disallowsBeforeFirstUA
      by_cases hua : isUADirective line = true
      · rw [if_pos hua]; exact hall.2
      · rw [if_neg hua]; exact ih hall.2

theorem isAllowedLines_of_disallowsBeforeFirstUA (path agent : String) :
    ∀ (lines : List String),
    disallowsBeforeFirstUA lines = true →
    isAllowedLines path agent lines false = true := by
  intro lines
  induction lines with
  | nil => intro _; rfl
  | cons line rest ih =>
      intro hcond
      unfold disallowsBeforeFirstUA at hcond
      simp only [isAllowedLines]
      by_cases hua : isUADirective line = true
      · rw [if_pos hua] at hcond
        by_cases hskip : (jsStartsWith (jsTrim line) "#" || jsTrim line == "") = true
        · rw [if_pos hskip]
          exact isAllowedLines_of_noDisallow path agent rest false hcond
        · rw [if_neg hskip]
          unfold isUADirective at hua
          rw [if_pos hua]
          exact isAllowedLines_of_noDisallow path agent rest _ hcond
      · rw [if_neg hua] at hcond
        by_cases hskip : (jsStartsWith (jsTrim line) "#" || jsTrim line == "") = true
        · rw [if_pos hskip]; exact ih hcond
        · rw [if_neg hskip]
          unfold isUADirective at hua
          rw [if_neg hua]
          rw [if_neg (by simp)]
          exact ih hcond

/-- C10, confirmed: when every disallow directive of the permission
document stands before the first user-agent line, or the document has no
user-agent line at all, the hand-rolled evaluator never applies any of
them and isPathAllowed returns true for every path and agent. -/
theorem claim_C10 (content path agent : String)
    (h : disallowsBeforeFirstUA (splitLines content) = true) :
    isPathAllowed content path agent = true := by
  unfold isPathAllowed
  by_cases hc : (content == "") = true
  · rw [if_pos hc]
  · rw [if_neg hc]
    exact isAllowedLines_of_disallowsBeforeFirstUA path agent (splitLines content) h

/-- C10, witness: a document whose only disallow line stands before its
user-agent line allows a path that the prefix would otherwise block. -/
theorem claim_C10_witness :
    isPathAllowed "Disallow: /s/\nUser-agent: *\n" "/s/Paris" "any-agent" = true :=
  claim_C10 "Disallow: /s/\nUser-agent: *\n" "/s/Paris" "any-agent" rfl

theorem nodupKeys_cons {k0 : String} {r0 : Value} {rest : List (String × Value)}
    (h : nodupKeys ((k0, r0) :: rest) = true) :
    (∀ e ∈ rest, e.1 ≠ k0) ∧ nodupKeys rest = true := by
  unfold nodupKeys at h
  simp only [Bool.and_eq_true, Bool.not_eq_true'] at h
  obtain ⟨h1, h2⟩ := h
  refine ⟨?_, h2⟩
  intro e he heq
  have hany : rest.any (fun e => e.1 == k0) = true :=
    List.any_eq_true.2 ⟨e, he, by simp [heq]⟩
  rw [hany] at h1
  exact Bool.noConfusion h1

theorem wfRuleFields_mem : ∀ {sf : List (String × Value)} {k : String} {r : Value},
    wfRuleFields sf = true → (k, r) ∈ sf → wfRule r = true := by
  intro sf
  induction sf with
  | nil => intro k r _ hm; simp at hm
  | cons e rest ih =>
      intro k r hwf hm
      obtain ⟨k0, r0⟩ := e
      rw [show wfRuleFields ((k0, r0) :: rest) = (wfRule r0 && wfRuleFields rest) from rfl]
        at hwf
      simp only [Bool.and_eq_true] at hwf
      rcases List.mem_cons.1 hm with h | h
      · cases h; exact hwf.1
      · exact ih hwf.2 h

theorem getField_pickFields_notmem :
    ∀ (fields entries : List (String × Value)) (k : String),
    (∀ e ∈ entries, e.1 ≠ k) → getField (pickFields fields entries) k = none := by
  intro fields entries
  induction entries with
  | nil => intro k _; rw [pickFields]; rfl
  | cons e rest ih =>
      intro k hno
      obtain ⟨k0, r0⟩ := e
      have hk0 : k0 ≠ k := hno (k0, r0) (by simp)
      have hne : (k0 == k) = false := beq_eq_false_iff_ne.2 hk0
      have hrest : ∀ e ∈ rest, e.1 ≠ k := fun e he => hno e (by simp [he])
      rcases hg0 : getField fields k0 with _ | v0
      · rw [pickFields, hg0]
        exact ih k hrest
      · rw [pickFields, hg0]
        cases r0 with
        | vbool b =>
            cases b with
            | true => rw [getField, if_neg (by simp [hne])]; exact ih k hrest
            | false => exact ih k hrest
        | vobj sf => rw [getField, if_neg (by simp [hne])]; exact ih k hrest
        | varr se => rw [getField, if_neg (by simp [hne])]; exact ih k hrest
        | vnull => exact ih k hrest
        | vundef => exact ih k hrest
        | vnum n => exact ih k hrest
        | vstr s => exact ih k hrest

theorem getField_pickFields_mem :
    ∀ (fields entries : List (String × Value)) (k : String) (r v : Value),
    nodupKeys entries = true → (k, r) ∈ entries → getField fields k = some v →
    getField (pickFields fields entries) k =
      (match r with
        | vbool true => some v
        | vobj rf => some (pickBySchema v (vobj rf))
        | varr rf => some (pickBySchema v (varr rf))
        | _ => none) := by
  intro fields entries
  induction entries with
  | nil => intro k r v _ hm _; simp at hm
  | cons e rest ih =>
      intro k r v hnd hm hv
      obtain ⟨k0, r0⟩ := e
      obtain ⟨hno, hnd2⟩ := nodupKeys_cons hnd
      rcases List.mem_cons.1 hm with he | he
      · cases he
        rw [pickFields, hv]
        cases r with
        | vbool b =>
            cases b with
            | true => rw [getField, if_pos (by simp)]
            | false => exact getField_pickFields_notmem fields rest k hno
        | vobj rf => rw [getField, if_pos (by simp)]
        | varr rf => rw [getField, if_pos (by simp)]
        | vnull => exact getField_pickFields_notmem fields rest k hno
        | vundef => exact getField_pickFields_notmem fields rest k hno
        | vnum n => exact getField_pickFields_notmem fields rest k hno
        | vstr s => exact getField_pickFields_notmem fields rest k hno
      · have hkk : k ≠ k0 := fun heq => hno (k, r) he (by simp [heq])
        have hne : (k0 == k) = false := beq_eq_false_iff_ne.2 (fun heq => hkk heq.symm)
        rcases hg0 : getField fields k0 with _ | v0
        · rw [pickFields, hg0]
          exact ih k r v hnd2 he hv
        · rw [pickFields, hg0]
          cases r0 with
          | vbool b =>
              cases b with
              | true =>
                  rw [getField, if_neg (by simp [hne])]
                  exact ih k r v hnd2 he hv
              | false => exact ih k r v hnd2 he hv
          | vobj sf =>
              rw [getField, if_neg (by simp [hne])]
              exact ih k r v hnd2 he hv
          | varr se =>
              rw [getField, if_neg (by simp [hne])]
              exact ih k r v hnd2 he hv
          | vnull => exact ih k r v hnd2 he hv
          | vundef => exact ih k r v hnd2 he hv
          | vnum n => exact ih k r v hnd2 he hv
          | vstr s => exact ih k r v hnd2 he hv

theorem getField_pickFields_none :
    ∀ (fields entries : List (String × Value)) (k : String),
    getField fields k = none → getField (pickFields fields entries) k = none := by
  intro fields entries k hg
  induction entries with
  | nil => rw [pickFields]; rfl
  | cons e rest ih =>
      obtain ⟨k0, r0⟩ := e
      rcases hg0 : getField fields k0 with _ | v0
      · rw [pickFields, hg0]; exact ih
      · have hne : (k0 == k) = false := by
          apply beq_eq_false_iff_ne.2
          intro heq
          rw [heq, hg] at hg0
          exact Option.noConfusion hg0
        rw [pickFields, hg0]
        cases r0 with
        | vbool b =>
            cases b with
            | true => rw [getField, if_neg (by simp [hne])]; exact ih
            | false => exact ih
        | vobj sf => rw [getField, if_neg (by simp [hne])]; exact ih
        | varr se => rw [getField, if_neg (by simp [hne])]; exact ih
        | vnull => exact ih
        | vundef => exact ih
        | vnum n => exact ih
        | vstr s => exact ih

theorem pickElems_idem (n : Nat)
    (ihn : ∀ (v : Value), sizeOf v ≤ n → ∀ (s : Value), wfRule s = true →
      pickBySchema (pickBySchema v s) s = pickBySchema v s)
    (s : Value) (hs : wfRule s = true) :
    ∀ (l : List Value), (∀ e ∈ l, sizeOf e ≤ n) →
    pickElems (pickElems l s) s = pickElems l s := by
  intro l
  induction l with
  | nil => intro _; rw [pickElems, pickElems]
  | cons e t iht =>
      intro hb
      rw [pickElems, pickElems]
      rw [ihn e (hb e (by simp)) s hs]
      rw [iht (fun x hx => hb x (by simp [hx]))]

theorem pickFields_idem (n : Nat)
    (ihn : ∀ (v : Value), sizeOf v ≤ n → ∀ (s : Value), wfRule s = true →
      pickBySchema (pickBySchema v s) s = pickBySchema v s)
    (fields sf : List (String × Value))
    (hfb : ∀ (k : String) (v : Value), getField fields k = some v → sizeOf v ≤ n)
    (hnd : nodupKeys sf = true) (hwf : wfRuleFields sf = true) :
    ∀ (es : List (String × Value)), (∀ e ∈ es, e ∈ sf) →
    pickFields (pickFields fields sf) es = pickFields fields es := by
  intro es
  induction es with
  | nil => intro _; rw [pickFields, pickFields]
  | cons e t iht =>
      intro hsub
      obtain ⟨key, r⟩ := e
      have hmem : (key, r) ∈ sf := hsub (key, r) (by simp)
      have hwfr : wfRule r = true := wfRuleFields_mem hwf hmem
      have htsub : ∀ x ∈ t, x ∈ sf := fun x hx => hsub x (by simp [hx])
      rcases hg : getField fields key with _ | v
      · have hg2 : getField (pickFields fields sf) key = none :=
          getField_pickFields_none fields sf key hg
        rw [pickFields, pickFields, hg, hg2]
        exact iht htsub
      · have hg2 := getField_pickFields_mem fields sf key r v hnd hmem hg
        cases r with
        | vbool b =>
            cases b with
            | true =>
                have hg3 : getField (pickFields fields sf) key = some v := hg2
                rw [pickFields, pickFields, hg, hg3]
                show (key, v) :: pickFields (pickFields fields sf) t =
                  (key, v) :: pickFields fields t
                rw [iht htsub]
            | false => simp [wfRule] at hwfr
        | vobj rf =>
            have hg3 : getField (pickFields fields sf) key =
                some (pickBySchema v (vobj rf)) := hg2
            rw [pickFields, pickFields, hg, hg3]
            show (key, pickBySchema (pickBySchema v (vobj rf)) (vobj rf)) ::
                pickFields (pickFields fields sf) t =
              (key, pickBySchema v (vobj rf)) :: pickFields fields t
            rw [ihn v (hfb key v hg) (vobj rf) hwfr]
            rw [iht htsub]
        | varr se => simp [wfRule] at hwfr
        | vnull => simp [wfRule] at hwfr
        | vundef => simp [wfRule] at hwfr
        | vnum m => simp [wfRule] at hwfr
        | vstr s0 => simp [wfRule] at hwfr

theorem pick_idem_aux : ∀ (n : Nat) (v : Value), sizeOf v ≤ n → ∀ (s : Value),
    wfRule s = true → pickBySchema (pickBySchema v s) s = pickBySchema v s := by
  intro n
  induction n with
  | zero =>
      intro v hv
      exact absurd hv (by cases v <;> simp)
  | succ n ihn =>
      intro v hv s hs
      cases v with
      | vnull => simp [pickBySchema]
      | vundef => simp [pickBySchema]
      | vbool b => simp [pickBySchema]
      | vnum m => simp [pickBySchema]
      | vstr s0 => simp [pickBySchema]
      | varr elems =>
          have hbound : ∀ e ∈ elems, sizeOf e ≤ n := by
            intro e he
            have h1 : sizeOf e < sizeOf elems := List.sizeOf_lt_of_mem he
            have h2 : sizeOf (varr elems) = 1 + sizeOf elems := by simp
            omega
          rw [pickBySchema, pickBySchema]
          congr 1
          exact pickElems_idem n ihn s hs elems hbound
      | vobj fields =>
          cases s with
          | vbool b =>
              cases b with
              | true => simp [pickBySchema, schemaEntries, pickFields]
              | false => simp [wfRule] at hs
          | vobj sf =>
              have hwf2 := hs
              rw [show wfRule (vobj sf) = (nodupKeys sf && wfRuleFields sf) from rfl] at hwf2
              simp only [Bool.and_eq_true] at hwf2
              obtain ⟨hnd, hwff⟩ := hwf2
              have hfb : ∀ (k : String) (v : Value), getField fields k = some v →
                  sizeOf v ≤ n := by
                intro k v hg
                have h1 : sizeOf v < sizeOf fields := sizeOf_getField hg
                have h2 : sizeOf (vobj fields) = 1 + sizeOf fields := by simp
                omega
              rw [pickBySchema]
              simp only [schemaEntries]
              rw [pickBySchema]
              simp only [schemaEntries]
              congr 1
              exact pickFields_idem n ihn fields sf hfb hnd hwff sf (fun e he => he)
          | vnull => simp [wfRule] at hs
          | vundef => simp [wfRule] at hs
          | vnum m => simp [wfRule] at hs
          | vstr s0 => simp [wfRule] at hs
          | varr se => simp [wfRule] at hs

/-- C9, confirmed: for every value and every schema whose rules are all
either the literal Keep marker true or nested rule mappings with the
distinct keys a JavaScript object always has, selecting twice with the
same schema equals selecting once. -/
theorem claim_C9 (v s : Value) (h : wfRule s = true) :
    pickBySchema (pickBySchema v s) s = pickBySchema v s :=
  pick_idem_aux (sizeOf v) v (le_refl _) s h

/-- C9, witness: idempotence at a concrete value and schema. -/
theorem claim_C9_witness :
    pickBySchema
        (pickBySchema (vobj [("a", vnum 1), ("b", vnum 2)]) (vobj [("a", vbool true)]))
        (vobj [("a", vbool true)]) =
      pickBySchema (vobj [("a", vnum 1), ("b", vnum 2)]) (vobj [("a", vbool true)]) :=
  claim_C9 (vobj [("a", vnum 1), ("b", vnum 2)]) (vobj [("a", vbool true)]) rfl

end MCPAirbnb
